import Mathlib

/-!
Verification of the FileMind indexing-consistency and hybrid-retrieval engine.

This file gives a shallow embedding of the core of the `filemind` package
(`extractor.py`, `database.py` / `repository.py`, `cli.py`) and proves or
refutes the frozen specification claims about it.

Conventions of the embedding:
* Python lists become Lean `List`s; SQLite tables become Lean lists of
  records kept in rowid (primary-key) order, which is the order in which
  SQLite stores rows in its B-tree and the order in which it returns rows
  of `SELECT` statements that have no `ORDER BY` (including `WHERE id IN`
  queries, which iterate the id set in ascending order).
* SQLite assigns a fresh `INTEGER PRIMARY KEY` (the schema in
  `database.py` does not use `AUTOINCREMENT`) as `max(current ids) + 1`,
  or `1` for an empty table; `nextRowId` models exactly that.
* The embedding backend (`embedder.py`) delegates to an external neural
  model; it is modelled as an abstract function `String → V` that may be
  absent (`Option`), mirroring the `FileNotFoundError` raised when the
  model or tokenizer files are missing.
* Similarity scores (floats in the source) are modelled as rationals.
* The `vector_store` module is imported by `cli.py` but is not part of
  the provided sources; it is modelled from the spec (see `VectorStore`).
-/

namespace FileMind

/-! ## Chunking (`extractor.py`, `chunk_text`)

`chunk_text(text, chunk_size=1000, chunk_overlap=200)` slices `text`
into windows `text[start : start+chunk_size]`, normalizes whitespace via
`" ".join(chunk.split())`, yields the chunk if non-empty, and advances
`start` by `chunk_size - chunk_overlap`.  The Python loop is modelled
with an explicit fuel argument (the loop body does not structurally
recurse); `text.length` fuel is enough whenever
`chunk_overlap < chunk_size`, which is what claim C10 is about. -/

/-- Model of Python `str.split()` restricted to an accumulator pass:
splits a character list on runs of whitespace, dropping empty pieces.
The accumulator holds the current word reversed. -/
def wsWordsAux : List Char → List Char → List (List Char)
  | [], acc => if acc = [] then [] else [acc.reverse]
  | c :: rest, acc =>
    if c.isWhitespace then
      if acc = [] then wsWordsAux rest [] else acc.reverse :: wsWordsAux rest []
    else
      wsWordsAux rest (c :: acc)

/-- Model of Python `str.split()` with no arguments: the list of
whitespace-separated words of the text, each non-empty. -/
def wsWords (l : List Char) : List (List Char) :=
  wsWordsAux l []

/-- Model of Python `" ".join(words)`: joins words with single spaces. -/
def joinWords : List (List Char) → List Char
  | [] => []
  | [w] => w
  | w :: ws => w ++ ' ' :: joinWords ws

/-- Model of `" ".join(chunk.split())` from `chunk_text`: whitespace
normalization of a string. -/
def normalizeWs (s : String) : String :=
  String.mk (joinWords (wsWords s.data))

/-- Loop body of `chunk_text`, with explicit fuel standing in for the
Python `while` loop.  At each step it takes the window
`text[start : start + csize]`, normalizes it, yields it when non-empty,
and advances `start` by `csize - cov` (truncated subtraction; in Python
a non-positive step makes the loop diverge, which is why the fuel is
needed at all). -/
def chunkTextAux (chars : List Char) (csize cov tlen : Nat) : Nat → Nat → List String
  | 0, _ => []
  | fuel + 1, start =>
    if start < tlen then
      let chunk := normalizeWs (String.mk ((chars.drop start).take csize))
      let rest := chunkTextAux chars csize cov tlen fuel (start + (csize - cov))
      if chunk = "" then rest else chunk :: rest
    else []

/-- Model of `extractor.chunk_text`: returns the list of chunks the
Python generator yields.  The fuel `text.length` is sufficient whenever
`cov < csize` (claim C10). -/
def chunkText (text : String) (csize cov : Nat) : List String :=
  if text = "" then []
  else chunkTextAux text.data csize cov text.data.length text.data.length 0

/-- Normalization predicate of the spec: every whitespace character is a
single plain space, the string neither starts nor ends with whitespace,
and no two whitespace characters are adjacent (runs are collapsed). -/
def IsNormalizedStr (s : String) : Prop :=
  (∀ c ∈ s.data, c.isWhitespace → c = ' ') ∧
  (∀ c, s.data.head? = some c → ¬ c.isWhitespace) ∧
  (∀ c, s.data.getLast? = some c → ¬ c.isWhitespace) ∧
  s.data.Chain' (fun a b => ¬ (a.isWhitespace ∧ b.isWhitespace))

theorem wsWordsAux_sound (l : List Char) :
    ∀ acc, (∀ c ∈ acc, ¬ c.isWhitespace) →
      ∀ w ∈ wsWordsAux l acc, w ≠ [] ∧ ∀ c ∈ w, ¬ c.isWhitespace := by
  induction l with
  | nil =>
    intro acc hacc w hw
    simp only [wsWordsAux] at hw
    by_cases h : acc = []
    · simp [h] at hw
    · simp only [if_neg h, List.mem_singleton] at hw
      subst hw
      refine ⟨by simpa using h, ?_⟩
      intro c hc
      exact hacc c (List.mem_reverse.mp hc)
  | cons c rest ih =>
    intro acc hacc w hw
    simp only [wsWordsAux] at hw
    by_cases hws : c.isWhitespace
    · simp only [if_pos hws] at hw
      by_cases h : acc = []
      · simp only [if_pos h] at hw
        exact ih [] (by simp) w hw
      · simp only [if_neg h, List.mem_cons] at hw
        rcases hw with hw | hw
        · subst hw
          refine ⟨by simpa using h, ?_⟩
          intro x hx
          exact hacc x (List.mem_reverse.mp hx)
        · exact ih [] (by simp) w hw
    · simp only [if_neg hws] at hw
      refine ih (c :: acc) ?_ w hw
      intro x hx
      rcases List.mem_cons.mp hx with hx | hx
      · subst hx; exact hws
      · exact hacc x hx

theorem wsWords_sound (l : List Char) :
    ∀ w ∈ wsWords l, w ≠ [] ∧ ∀ c ∈ w, ¬ c.isWhitespace :=
  wsWordsAux_sound l [] (by simp)

theorem joinWords_ne_nil {w : List Char} {ws : List (List Char)} (hw : w ≠ []) :
    joinWords (w :: ws) ≠ [] := by
  cases ws with
  | nil => simpa [joinWords] using hw
  | cons w2 ws2 =>
    simp only [joinWords]
    intro h
    exact hw (List.append_eq_nil.mp h).1

theorem chain_of_all_nonws {l : List Char} (h : ∀ c ∈ l, ¬ c.isWhitespace) :
    l.Chain' (fun a b => ¬ (a.isWhitespace ∧ b.isWhitespace)) := by
  induction l with
  | nil => simp
  | cons a t ih =>
    cases t with
    | nil => simp
    | cons b t2 =>
      refine List.chain'_cons.mpr ⟨?_, ih ?_⟩
      · intro hab
        exact h a (by simp) hab.1
      · intro c hc
        exact h c (List.mem_cons_of_mem a hc)

theorem joinWords_head_not_ws {w : List Char} {ws : List (List Char)}
    (hw : w ≠ []) (hnws : ∀ c ∈ w, ¬ c.isWhitespace) :
    ∀ c, (joinWords (w :: ws)).head? = some c → ¬ c.isWhitespace := by
  intro c hc
  have hhead : (joinWords (w :: ws)).head? = w.head? := by
    cases ws with
    | nil => simp [joinWords]
    | cons w2 ws2 =>
      simp only [joinWords]
      cases w with
      | nil => exact absurd rfl hw
      | cons a t => simp
  rw [hhead] at hc
  exact hnws c (List.mem_of_mem_head? hc)

/-- Induction core for claim C9: joining non-empty all-non-whitespace
words with single spaces yields a normalized character list. -/
theorem joinWords_normalized (ws : List (List Char))
    (h : ∀ w ∈ ws, w ≠ [] ∧ ∀ c ∈ w, ¬ c.isWhitespace) :
    IsNormalizedStr (String.mk (joinWords ws)) := by
  induction ws with
  | nil =>
    refine ⟨?_, ?_, ?_, ?_⟩ <;> simp [joinWords]
  | cons w ws2 ih =>
    obtain ⟨hw, hnws⟩ := h w (by simp)
    have hrest : ∀ w2 ∈ ws2, w2 ≠ [] ∧ ∀ c ∈ w2, ¬ c.isWhitespace := by
      intro w2 hw2
      exact h w2 (List.mem_cons_of_mem w hw2)
    cases ws2 with
    | nil =>
      refine ⟨?_, ?_, ?_, ?_⟩
      · intro c hc hcws
        exact absurd hcws (hnws c (by simpa [joinWords] using hc))
      · intro c hc
        simp only [joinWords] at hc
        exact hnws c (List.mem_of_mem_head? hc)
      · intro c hc
        simp only [joinWords] at hc
        exact hnws c (List.mem_of_mem_getLast? hc)
      · exact chain_of_all_nonws (by simpa [joinWords] using hnws)
    | cons w2 ws3 =>
      obtain ⟨hall, hhead, hlast, hchain⟩ := ih hrest
      obtain ⟨hw2, hnws2⟩ := hrest w2 (by simp)
      have hjoin : joinWords (w :: w2 :: ws3) = w ++ ' ' :: joinWords (w2 :: ws3) := rfl
      have hrest_ne : joinWords (w2 :: ws3) ≠ [] := joinWords_ne_nil hw2
      refine ⟨?_, ?_, ?_, ?_⟩
      · intro c hc hcws
        simp only [hjoin, String.data] at hc
        rcases List.mem_append.mp hc with hc | hc
        · exact absurd hcws (hnws c hc)
        · rcases List.mem_cons.mp hc with hc | hc
          · exact hc ▸ rfl
          · exact hall c hc hcws
      · intro c hc
        exact joinWords_head_not_ws hw hnws c hc
      · intro c hc
        simp only [hjoin, String.data] at hc
        rw [List.getLast?_append_cons] at hc
        have hsingle : (' ' :: joinWords (w2 :: ws3)) = [' '] ++ joinWords (w2 :: ws3) := rfl
        rw [hsingle, List.getLast?_append_of_ne_nil _ hrest_ne] at hc
        exact hlast c hc
      · simp only [hjoin, String.data]
        rw [List.chain'_append]
        refine ⟨chain_of_all_nonws hnws, ?_, ?_⟩
        · refine List.chain'_cons'.mpr ⟨?_, hchain⟩
          intro y hy hcontra
          exact hhead y (by simpa using hy) hcontra.2
        · intro x hx y hy hcontra
          exact hnws x (List.mem_of_mem_getLast? hx) hcontra.1

theorem normalizeWs_normalized (s : String) : IsNormalizedStr (normalizeWs s) :=
  joinWords_normalized (wsWords s.data) (wsWords_sound s.data)

/-- Membership in the chunk-loop output: every yielded chunk is a
whitespace-normalization of some window and is non-empty. -/
theorem chunkTextAux_mem (chars : List Char) (csize cov tlen : Nat) :
    ∀ fuel start c, c ∈ chunkTextAux chars csize cov tlen fuel start →
      c ≠ "" ∧ ∃ sl, c = normalizeWs sl := by
  intro fuel
  induction fuel with
  | zero => intro start c hc; simp [chunkTextAux] at hc
  | succ f ih =>
    intro start c hc
    simp only [chunkTextAux] at hc
    by_cases hlt : start < tlen
    · simp only [if_pos hlt] at hc
      by_cases hch : normalizeWs (String.mk ((chars.drop start).take csize)) = ""
      · simp only [if_pos hch] at hc
        exact ih _ c hc
      · simp only [if_neg hch, List.mem_cons] at hc
        rcases hc with hc | hc
        · exact ⟨hc ▸ hch, ⟨_, hc⟩⟩
        · exact ih _ c hc
    · simp [if_neg hlt] at hc

/-- C9: `chunk_text` is a pure function of its text argument in this
embedding (it is a Lean function, and the source generator performs no
I/O and reads no state), and every chunk it yields is non-empty and
whitespace-normalized: no leading or trailing whitespace, every
whitespace character is a single space, and no two whitespace characters
are adjacent. -/
theorem chunkText_yields_normalized (text : String) (csize cov : Nat) (c : String)
    (hc : c ∈ chunkText text csize cov) :
    c ≠ "" ∧ IsNormalizedStr c := by
  simp only [chunkText] at hc
  by_cases h : text = ""
  · simp [h] at hc
  · simp only [if_neg h] at hc
    obtain ⟨hne, sl, hsl⟩ := chunkTextAux_mem _ _ _ _ _ _ c hc
    exact ⟨hne, hsl ▸ normalizeWs_normalized sl⟩

/-- Witness for C9 on a concrete input: chunking the text with a
tab-separated pair of words yields a chunk that the theorem certifies
non-empty and normalized. -/
theorem chunkText_yields_normalized_witness :
    ("a b" ∈ chunkText "a\tb" 1000 200) ∧ ("a b" ≠ "" ∧ IsNormalizedStr "a b") :=
  ⟨by decide, chunkText_yields_normalized "a\tb" 1000 200 "a b" (by decide)⟩

/-- Fuel irrelevance: with a positive step (`cov < csize`), the loop
result does not depend on the fuel once the fuel covers the remaining
distance.  This is the termination argument of claim C10: each
iteration advances `start` by the positive amount `csize - cov`. -/
theorem chunkTextAux_fuel_stable (chars : List Char) (csize cov tlen : Nat)
    (hstep : cov < csize) :
    ∀ f1 f2 start, tlen - start ≤ f1 → tlen - start ≤ f2 →
      chunkTextAux chars csize cov tlen f1 start =
        chunkTextAux chars csize cov tlen f2 start := by
  intro f1
  induction f1 with
  | zero =>
    intro f2 start h1 h2
    have hstart : tlen ≤ start := Nat.le_of_sub_eq_zero (Nat.le_zero.mp h1)
    have hnlt : ¬ start < tlen := Nat.not_lt.mpr hstart
    cases f2 with
    | zero => rfl
    | succ f => simp [chunkTextAux, hnlt]
  | succ f ihf =>
    intro f2 start h1 h2
    by_cases hlt : start < tlen
    · have hpos : 0 < csize - cov := Nat.sub_pos_of_lt hstep
      have hrem : tlen - (start + (csize - cov)) ≤ tlen - start - 1 := by
        omega
      cases f2 with
      | zero => omega
      | succ g =>
        simp only [chunkTextAux, if_pos hlt]
        have hrec := ihf g (start + (csize - cov)) (by omega) (by omega)
        rw [hrec]
    · cases f2 with
      | zero => simp [chunkTextAux, hlt]
      | succ g => simp [chunkTextAux, hlt]

/-- C10: the `chunk_text` loop terminates for every finite input
whenever `chunk_overlap < chunk_size` (in particular for the defaults
1000 and 200): the fuel-indexed model of the loop is stable once the
fuel reaches the text length, i.e. the loop reaches its exit condition
within `text.length` iterations because each iteration advances the
start position by the positive amount `csize - cov`. -/
theorem chunkText_terminates (text : String) (csize cov fuel : Nat)
    (hstep : cov < csize) (hfuel : text.data.length ≤ fuel) :
    chunkTextAux text.data csize cov text.data.length fuel 0 =
      chunkTextAux text.data csize cov text.data.length text.data.length 0 :=
  chunkTextAux_fuel_stable text.data csize cov text.data.length hstep fuel
    text.data.length 0 (by omega) (by omega)

/-- Witness for C10 at the default parameters on a concrete text: a very
large fuel computes the same chunk list as the canonical fuel. -/
theorem chunkText_terminates_witness :
    (200 < 1000 ∧ ("hello world").data.length ≤ 999999) ∧
      chunkTextAux ("hello world").data 1000 200 ("hello world").data.length 999999 0 =
        chunkTextAux ("hello world").data 1000 200 ("hello world").data.length
          ("hello world").data.length 0 :=
  ⟨⟨by decide, by decide⟩,
    chunkText_terminates "hello world" 1000 200 999999 (by decide) (by decide)⟩

/-! ## Content store (`database.py` schema semantics, `repository.py`)

Tables are lists of rows kept in rowid order.  The schema declares
`id INTEGER PRIMARY KEY` without `AUTOINCREMENT`, so SQLite assigns a
new rowid as `max(current rowids) + 1` (1 when the table is empty);
`nextRowId` models this.  The `indexed_at` column (a wall-clock
timestamp no claim refers to) is omitted from the row model. -/

/-- Row of the `chunks` table. -/
structure ChunkRow where
  id : Nat
  file_id : Nat
  chunk_index : Nat
  content : String
deriving DecidableEq

/-- Row of the `files` table (without the `indexed_at` timestamp). -/
structure FileRow where
  id : Nat
  file_path : String
  file_hash : String
  file_size : Nat
  last_modified_time : Nat
deriving DecidableEq

/-- The relational store: `files` and `chunks` tables in rowid order.
The `chunks_fts` full-text shadow table is a derived projection kept in
sync by triggers; it carries no independent state and is not modelled
as a separate field. -/
structure DB where
  files : List FileRow
  chunks : List ChunkRow
deriving DecidableEq

def emptyDB : DB := ⟨[], []⟩

/-- Largest id among a list of ids (0 when empty). -/
def listMax (l : List Nat) : Nat := l.foldr (fun i m => max i m) 0

/-- SQLite rowid assignment for `INTEGER PRIMARY KEY` without
`AUTOINCREMENT`: the successor of the current maximum rowid. -/
def nextRowId (ids : List Nat) : Nat := listMax ids + 1

/-- Model of `repository.add_file`: inserts a file row and returns the
updated store with `cursor.lastrowid`. -/
def addFile (db : DB) (path hash : String) (size mtime : Nat) : DB × Nat :=
  let fid := nextRowId (db.files.map (·.id))
  ({ db with files := db.files ++ [⟨fid, path, hash, size, mtime⟩] }, fid)

/-- Model of `repository.get_file_by_path`: the
`(id, file_size, last_modified_time)` of the row matching the path. -/
def getFileByPath (db : DB) (path : String) : Option (Nat × Nat × Nat) :=
  (db.files.find? (fun f => f.file_path == path)).map
    (fun f => (f.id, f.file_size, f.last_modified_time))

/-- Model of `repository.delete_file_and_chunks`: deletes the file row;
`ON DELETE CASCADE` removes the chunks owned by it. -/
def deleteFileAndChunks (db : DB) (fid : Nat) : DB :=
  { files := db.files.filter (fun f => f.id != fid),
    chunks := db.chunks.filter (fun c => c.file_id != fid) }

/-- Model of `repository.add_chunk`: inserts a chunk row and returns the
updated store with `cursor.lastrowid`. -/
def addChunk (db : DB) (fid idx : Nat) (content : String) : DB × Nat :=
  let cid := nextRowId (db.chunks.map (·.id))
  ({ db with chunks := db.chunks ++ [⟨cid, fid, idx, content⟩] }, cid)

/-- Model of `repository.get_all_chunks_ordered` as written: the source
body opens a connection, creates a cursor and immediately calls
`cursor.fetchall()` without ever executing a `SELECT`; in Python
`sqlite3`, `fetchall` on a cursor with no executed statement returns the
empty list, so the function returns `[]` for every database state. -/
def getAllChunksOrdered (_db : DB) : List (Nat × String) := []

/-- Model of `repository.get_chunk_details_by_ids`
(`SELECT id, file_id, content FROM chunks WHERE id IN (...)`): rows come
back in table (rowid) order — SQLite iterates an `IN` constraint on the
integer primary key in ascending id order, not in the order the ids were
listed — which is the order of `db.chunks` here.  Ids are `Int` because
the caller passes FAISS positions plus one, and FAISS pads missing
results with -1. -/
def getChunkDetailsByIds (db : DB) (ids : List Int) : List (Nat × Nat × String) :=
  if ids = [] then []
  else (db.chunks.filter (fun c => ids.contains (c.id : Int))).map
    (fun c => (c.id, c.file_id, c.content))

/-! ## Vector store

Modelled from the spec: `cli.py` imports a `vector_store` module that is
not among the provided source files.  Spec section 4.2 specifies the
Vector Index contract: an append-only collection of vectors where
`append_batch` appends in the given order assigning positions starting
at the current size, and `size()` (the FAISS `ntotal` read by the
consistency guard) is the number of stored vectors.  Vectors are kept
abstract (type parameter `V`). -/

structure VectorStore (V : Type) where
  vectors : List V
deriving DecidableEq

/-- Modelled from the spec: `VectorStore.add` / `append_batch` appends a
batch of vectors in order at positions starting at the current size. -/
def VectorStore.add (vs : VectorStore V) (batch : List V) : VectorStore V :=
  ⟨vs.vectors ++ batch⟩

/-- Modelled from the spec: the index size (`vs.index.ntotal`). -/
def VectorStore.ntotal (vs : VectorStore V) : Nat := vs.vectors.length

def emptyVS : VectorStore V := ⟨[]⟩

/-! ## Error messages (`cli.py`, `embedder.py`)

The messages are carried so that the claims about actionable errors can
talk about the remediation they name.  Quoting characters of the
original f-strings are elided; the remediation commands are kept
verbatim. -/

def syncErrMsgPre (expected found : Nat) : String :=
  "FATAL: FAISS index out of sync. Expected index size " ++ toString expected ++
    ", found " ++ toString found ++
    ". This can happen after re-indexing files or if the index was not saved correctly. " ++
    "The current implementation does not support arbitrary deletions from FAISS. To resolve, please run "

def syncErrMsgPost : String :=
  " (once implemented). Skipping FAISS addition for this file to prevent corruption."

/-- The fatal consistency-guard message printed by `_process_file` when
`vs.index.ntotal != chunk_id - 1`. -/
def syncErrMsg (expected found : Nat) : String :=
  syncErrMsgPre expected found ++ "filemind rebuild-index" ++ syncErrMsgPost

/-- The `FileNotFoundError` text raised by `EmbeddingModel.__init__`
when the ONNX model or tokenizer file is absent, as printed by the
pipeline (`ERROR: ...`). -/
def noBackendMsg : String :=
  "ERROR: Model or tokenizer not found. Please run " ++ "filemind init" ++
    ". Checked paths: model.onnx, tokenizer.json"

/-- The message names the rebuild remediation. -/
def MentionsRebuild (m : String) : Prop := ∃ a b, m = a ++ "filemind rebuild-index" ++ b

/-- The message instructs the operator to run the init command. -/
def MentionsInit (m : String) : Prop := ∃ a b, m = a ++ "filemind init" ++ b

/-! ## Indexing pipeline (`cli.py`, `_process_file` and `scan`) -/

/-- Outcome of `_process_file` on one file, matching its return paths:
the three skip paths, the fatal missing-backend exit (`typer.Exit(1)`,
which aborts the whole scan), the consistency-guard abort, and the
successful indexing path. -/
inductive Outcome
  | skippedNotFound
  | skippedUnchanged
  | skippedNoText
  | skippedNoChunks
  | fatalNoBackend
  | abortedSync
  | indexed
deriving DecidableEq

/-- Input to `_process_file`: the stat data, content hash and extracted
text of a discovered file.  `readable` is false when the stat raises
`FileNotFoundError`; `suffix` is the lower-cased extension; `text` is
what `extractor.extract_text` returns (hashing and extraction are the
external collaborators of the spec). -/
structure FileInfo where
  file_path : String
  suffix : String
  readable : Bool
  size : Nat
  mtime : Nat
  hash : String
  text : String
deriving DecidableEq

/-- Result of `_process_file`: the stores after the call, the outcome,
and the error message printed on the fatal paths (if any). -/
structure PFResult (V : Type) where
  db : DB
  vs : VectorStore V
  outcome : Outcome
  err : Option String
deriving DecidableEq

/-- The per-chunk loop of `_process_file` (step 8): inserts each chunk
row in order and, after each insertion, runs the consistency guard
`vs.index.ntotal != chunk_id - 1` (the `ntotal` argument is constant
during the loop because `vs.add` only happens after it).  Returns the
store after the executed insertions and the guard message if the guard
fired. -/
def insertChunksLoop (ntotal fid : Nat) : DB → Nat → List String → DB × Option String
  | db, _, [] => (db, none)
  | db, i, content :: rest =>
    let r := addChunk db fid i content
    if ntotal ≠ r.2 - 1 then (r.1, some (syncErrMsg (r.2 - 1) ntotal))
    else insertChunksLoop ntotal fid r.1 (i + 1) rest

/-- Steps 3 to 8 of `_process_file`, after the unchanged-file check:
hash and insert the file row, extract text, chunk, generate the
embedding batch (fatal when the backend is absent), insert the chunk
rows under the guard, and finally append the embedding batch. -/
def processFileBody (backend : Option (String → V)) (db : DB) (vs : VectorStore V)
    (fi : FileInfo) : PFResult V :=
  let r1 := addFile db fi.file_path fi.hash fi.size fi.mtime
  if fi.text = "" then ⟨r1.1, vs, .skippedNoText, none⟩
  else
    let chunks := chunkText fi.text 1000 200
    if chunks = [] then ⟨r1.1, vs, .skippedNoChunks, none⟩
    else
      match backend with
      | none => ⟨r1.1, vs, .fatalNoBackend, some noBackendMsg⟩
      | some embed =>
        let r2 := insertChunksLoop vs.ntotal r1.2 r1.1 0 chunks
        match r2.2 with
        | some msg => ⟨r2.1, vs, .abortedSync, some msg⟩
        | none => ⟨r2.1, vs.add (chunks.map embed), .indexed, none⟩

/-- Model of `_process_file`: stat (skip when unreadable), change
detection by `(size, mtime)`, delete-and-cascade on change, then the
body. -/
def processFile (backend : Option (String → V)) (db : DB) (vs : VectorStore V)
    (fi : FileInfo) : PFResult V :=
  if fi.readable = false then ⟨db, vs, .skippedNotFound, none⟩
  else
    match getFileByPath db fi.file_path with
    | some (fid, sz, mt) =>
      if sz = fi.size ∧ mt = fi.mtime then ⟨db, vs, .skippedUnchanged, none⟩
      else processFileBody backend (deleteFileAndChunks db fid) vs fi
    | none => processFileBody backend db vs fi

/-- The extensions the `scan` command processes. -/
def supportedExtensions : List String := [".pdf", ".docx", ".txt"]

/-- State threaded through a scan: the stores, the per-file outcomes so
far, and whether a `typer.Exit` aborted the run (with its message). -/
structure ScanState (V : Type) where
  db : DB
  vs : VectorStore V
  outcomes : List Outcome
  fatal : Bool
  err : Option String
deriving DecidableEq

/-- One iteration of the `scan` loop: files with unsupported extensions
are not processed at all; a `typer.Exit` raised by `_process_file`
(missing backend) propagates, so once `fatal` is set nothing further
runs. -/
def scanStep (backend : Option (String → V)) (s : ScanState V) (fi : FileInfo) :
    ScanState V :=
  if s.fatal then s
  else if supportedExtensions.contains fi.suffix then
    let r := processFile backend s.db s.vs fi
    if r.outcome = .fatalNoBackend then ⟨r.db, r.vs, s.outcomes ++ [r.outcome], true, r.err⟩
    else ⟨r.db, r.vs, s.outcomes ++ [r.outcome], false, s.err⟩
  else s

/-- Model of the `scan` command over the discovered file list (the
database schema setup and the final `vs.save()` persistence are
I/O no-ops for the in-memory state). -/
def scanFrom (backend : Option (String → V)) (db : DB) (vs : VectorStore V)
    (files : List FileInfo) : ScanState V :=
  files.foldl (scanStep backend) ⟨db, vs, [], false, none⟩

/-! ## Claims C4 and C5 -/

/-- C4: the claim says chunk ids are never reused even after deletion.
The schema uses `INTEGER PRIMARY KEY` without `AUTOINCREMENT`, so SQLite
assigns `max(current ids) + 1`: after the only file (owning chunk id 1)
is deleted, the next inserted chunk receives id 1 again — the newly
assigned id is not strictly greater than every previously assigned id.
This theorem evaluates the store model on that failing sequence. -/
theorem chunk_id_reuse_after_delete :
    (addChunk (addFile emptyDB "a.txt" "h1" 5 10).1 (addFile emptyDB "a.txt" "h1" 5 10).2 0 "x").2 = 1 ∧
    (addChunk
      (addFile (deleteFileAndChunks
        (addChunk (addFile emptyDB "a.txt" "h1" 5 10).1 (addFile emptyDB "a.txt" "h1" 5 10).2 0 "x").1
        (addFile emptyDB "a.txt" "h1" 5 10).2) "b.txt" "h2" 6 11).1
      (addFile (deleteFileAndChunks
        (addChunk (addFile emptyDB "a.txt" "h1" 5 10).1 (addFile emptyDB "a.txt" "h1" 5 10).2 0 "x").1
        (addFile emptyDB "a.txt" "h1" 5 10).2) "b.txt" "h2" 6 11).2
      0 "y").2 = 1 := by
  decide

/-- C5: the claim says `get_all_chunks_ordered` returns every stored
chunk ordered by ascending id.  The source body never executes a
`SELECT` (it calls `fetchall` on a fresh cursor), so it returns the
empty list even for a store that holds a chunk: here a store containing
the single chunk `(1, "hello")`. -/
theorem getAllChunksOrdered_empty_on_nonempty_store :
    getAllChunksOrdered (addChunk (addFile emptyDB "a.txt" "h1" 5 10).1 1 0 "hello").1 = [] ∧
    ((addChunk (addFile emptyDB "a.txt" "h1" 5 10).1 1 0 "hello").1.chunks.map
      (fun c => (c.id, c.content))) = [(1, "hello")] := by
  decide

/-! ## Alignment invariant and helper lemmas -/

/-- Largest chunk id currently stored (0 for an empty table). -/
def maxChunkId (db : DB) : Nat := listMax (db.chunks.map (·.id))

/-- The central cross-store invariant: every chunk whose id has a
corresponding vector position holds the embedding of its own content
there — the vector for chunk id `c` sits at 0-based position `c - 1`,
so in particular the index size is at least `c`. -/
def ChunkVectorAligned (embed : String → V) (db : DB) (vs : VectorStore V) : Prop :=
  ∀ c ∈ db.chunks, c.id ≤ vs.vectors.length ∧
    vs.vectors.get? (c.id - 1) = some (embed c.content)

theorem listMax_append (l1 l2 : List Nat) :
    listMax (l1 ++ l2) = max (listMax l1) (listMax l2) := by
  induction l1 with
  | nil => simp [listMax]
  | cons a t ih =>
    simp only [List.cons_append, listMax, List.foldr_cons] at ih ⊢
    omega

theorem addChunk_snd (db : DB) (fid i : Nat) (c : String) :
    (addChunk db fid i c).2 = maxChunkId db + 1 := rfl

theorem addChunk_fst_files (db : DB) (fid i : Nat) (c : String) :
    (addChunk db fid i c).1.files = db.files := rfl

theorem addChunk_fst_chunks (db : DB) (fid i : Nat) (c : String) :
    (addChunk db fid i c).1.chunks = db.chunks ++ [⟨maxChunkId db + 1, fid, i, c⟩] := rfl

theorem maxChunkId_addChunk (db : DB) (fid i : Nat) (c : String) :
    maxChunkId (addChunk db fid i c).1 = maxChunkId db + 1 := by
  have h : (addChunk db fid i c).1.chunks.map (·.id) =
      db.chunks.map (·.id) ++ [maxChunkId db + 1] := by
    rw [addChunk_fst_chunks, List.map_append]
    rfl
  simp only [maxChunkId, h, listMax_append]
  simp [listMax]

/-- Success characterization of the chunk-insert loop: because the
guard compares the constant pre-append index size with each freshly
assigned (strictly increasing) chunk id, the loop can only complete
without firing when there is exactly one chunk and the index size
equals the previous maximal chunk id. -/
theorem insertChunksLoop_none (n fid i : Nat) (db : DB) (l : List String)
    (hl : l ≠ []) (hnone : (insertChunksLoop n fid db i l).2 = none) :
    ∃ content, l = [content] ∧ n = maxChunkId db ∧
      (insertChunksLoop n fid db i l).1 =
        { db with chunks := db.chunks ++ [⟨maxChunkId db + 1, fid, i, content⟩] } := by
  match l with
  | [] => exact absurd rfl hl
  | [c] =>
    by_cases hg : n ≠ (addChunk db fid i c).2 - 1
    · exfalso
      simp [insertChunksLoop, if_pos hg] at hnone
    · push_neg at hg
      have hn : n = maxChunkId db := by
        rw [addChunk_snd] at hg
        omega
      refine ⟨c, rfl, hn, ?_⟩
      simp only [insertChunksLoop, if_neg (by omega : ¬ n ≠ (addChunk db fid i c).2 - 1)]
      rfl
  | c1 :: c2 :: rest =>
    exfalso
    by_cases hg : n ≠ (addChunk db fid i c1).2 - 1
    · simp [insertChunksLoop, if_pos hg] at hnone
    · push_neg at hg
      have hn : n = maxChunkId db := by
        rw [addChunk_snd] at hg
        omega
      simp only [insertChunksLoop, if_neg (by omega : ¬ n ≠ (addChunk db fid i c1).2 - 1)] at hnone
      have hg2 : n ≠ (addChunk (addChunk db fid i c1).1 fid (i + 1) c2).2 - 1 := by
        rw [addChunk_snd, maxChunkId_addChunk]
        omega
      simp [insertChunksLoop, if_pos hg2] at hnone

/-- The chunk-insert loop only ever appends chunk rows (never removes
or edits committed rows), leaves the file table alone, and when the
guard fires it has committed at least one row and reports the
out-of-sync message. -/
theorem insertChunksLoop_appends (n fid : Nat) :
    ∀ (l : List String) (db : DB) (i : Nat),
      ∃ rows, (insertChunksLoop n fid db i l).1.files = db.files ∧
        (insertChunksLoop n fid db i l).1.chunks = db.chunks ++ rows ∧
        (∀ m, (insertChunksLoop n fid db i l).2 = some m →
          rows ≠ [] ∧ ∃ e f, m = syncErrMsg e f) := by
  intro l
  induction l with
  | nil =>
    intro db i
    exact ⟨[], rfl, by simp [insertChunksLoop], by simp [insertChunksLoop]⟩
  | cons c rest ih =>
    intro db i
    by_cases hg : n ≠ (addChunk db fid i c).2 - 1
    · refine ⟨[⟨maxChunkId db + 1, fid, i, c⟩], ?_, ?_, ?_⟩
      · simp only [insertChunksLoop, if_pos hg]
        rfl
      · simp only [insertChunksLoop, if_pos hg]
        rfl
      · intro m hm
        simp only [insertChunksLoop, if_pos hg] at hm
        exact ⟨by simp, (addChunk db fid i c).2 - 1, n, by simpa using hm.symm⟩
    · obtain ⟨rows, hf, hc, herr⟩ := ih (addChunk db fid i c).1 (i + 1)
      refine ⟨⟨maxChunkId db + 1, fid, i, c⟩ :: rows, ?_, ?_, ?_⟩
      · simp only [insertChunksLoop, if_neg hg]
        rw [hf, addChunk_fst_files]
      · simp only [insertChunksLoop, if_neg hg]
        rw [hc, addChunk_fst_chunks]
        simp
      · intro m hm
        simp only [insertChunksLoop, if_neg hg] at hm
        exact ⟨by simp, (herr m hm).2⟩

/-- Deleting a file (with its cascaded chunks) cannot break the
alignment invariant: it only removes chunk rows. -/
theorem aligned_delete (embed : String → V) (db : DB) (vs : VectorStore V) (fid : Nat)
    (h : ChunkVectorAligned embed db vs) :
    ChunkVectorAligned embed (deleteFileAndChunks db fid) vs := by
  intro c hc
  exact h c (List.mem_of_mem_filter hc)

/-- Alignment is preserved by any non-aborting run of the body of
`_process_file`: the only path that touches the vector store is the
success path, and there the guard forces the single inserted chunk id
to be exactly one past the current index size. -/
theorem processFileBody_aligned (embed : String → V) (db : DB) (vs : VectorStore V)
    (fi : FileInfo)
    (h : ChunkVectorAligned embed db vs)
    (hout : (processFileBody (some embed) db vs fi).outcome ≠ .abortedSync) :
    ChunkVectorAligned embed (processFileBody (some embed) db vs fi).db
      (processFileBody (some embed) db vs fi).vs := by
  have halign1 : ChunkVectorAligned embed (addFile db fi.file_path fi.hash fi.size fi.mtime).1 vs :=
    fun c hc => h c hc
  by_cases ht : fi.text = ""
  · simpa [processFileBody, ht] using halign1
  · by_cases hch : chunkText fi.text 1000 200 = []
    · simpa [processFileBody, ht, hch] using halign1
    · rcases hr2 : (insertChunksLoop vs.ntotal
          (addFile db fi.file_path fi.hash fi.size fi.mtime).2
          (addFile db fi.file_path fi.hash fi.size fi.mtime).1 0
          (chunkText fi.text 1000 200)).2 with _ | msg
      · obtain ⟨content, hone, hn, hfst⟩ :=
          insertChunksLoop_none vs.ntotal
            (addFile db fi.file_path fi.hash fi.size fi.mtime).2
            0 (addFile db fi.file_path fi.hash fi.size fi.mtime).1
            (chunkText fi.text 1000 200) hch hr2
        simp only [processFileBody, if_neg ht, if_neg hch, hr2, hfst]
        intro c hc
        simp only [hone, List.map_cons, List.map_nil] at hc ⊢
        rcases List.mem_append.mp hc with hold | hnew
        · obtain ⟨hle, hget⟩ := halign1 c hold
          have hlt : c.id - 1 < vs.vectors.length := by
            rcases List.get?_eq_some.mp hget with ⟨hlt, _⟩
            exact hlt
          refine ⟨by simp [VectorStore.add]; omega, ?_⟩
          simp only [VectorStore.add]
          rw [List.get?_append hlt]
          exact hget
        · have hceq : c = ⟨maxChunkId (addFile db fi.file_path fi.hash fi.size fi.mtime).1 + 1,
              (addFile db fi.file_path fi.hash fi.size fi.mtime).2, 0, content⟩ := by
            simpa using hnew
          subst hceq
          have hid : maxChunkId (addFile db fi.file_path fi.hash fi.size fi.mtime).1 =
              vs.vectors.length := by
            simpa [VectorStore.ntotal] using hn.symm
          constructor
          · simp [VectorStore.add, hid]
          · simp only [VectorStore.add, hid, Nat.add_sub_cancel]
            exact List.get?_concat_length vs.vectors (embed content)
      · exfalso
        apply hout
        simp [processFileBody, if_neg ht, if_neg hch, hr2]

/-- Alignment is preserved by any non-aborting `_process_file` call. -/
theorem processFile_aligned (embed : String → V) (db : DB) (vs : VectorStore V)
    (fi : FileInfo)
    (h : ChunkVectorAligned embed db vs)
    (hout : (processFile (some embed) db vs fi).outcome ≠ .abortedSync) :
    ChunkVectorAligned embed (processFile (some embed) db vs fi).db
      (processFile (some embed) db vs fi).vs := by
  by_cases hread : fi.readable = false
  · simpa [processFile, hread] using h
  · rcases hlook : getFileByPath db fi.file_path with _ | ⟨fid, sz, mt⟩
    · have hout2 : (processFileBody (some embed) db vs fi).outcome ≠ .abortedSync := by
        simpa [processFile, hread, hlook] using hout
      simpa [processFile, hread, hlook] using
        processFileBody_aligned embed db vs fi h hout2
    · by_cases hmatch : sz = fi.size ∧ mt = fi.mtime
      · simpa [processFile, hread, hlook, hmatch] using h
      · have hout2 : (processFileBody (some embed) (deleteFileAndChunks db fid) vs fi).outcome ≠
            .abortedSync := by
          simpa [processFile, hread, hlook, hmatch] using hout
        simpa [processFile, hread, hlook, hmatch] using
          processFileBody_aligned embed (deleteFileAndChunks db fid) vs fi
            (aligned_delete embed db vs fid h) hout2

/-- The scan loop only appends to the outcome log. -/
theorem foldl_scanStep_outcomes (b : Option (String → V)) :
    ∀ (l : List FileInfo) (s : ScanState V),
      ∃ t, (l.foldl (scanStep b) s).outcomes = s.outcomes ++ t := by
  intro l
  induction l with
  | nil => intro s; exact ⟨[], by simp⟩
  | cons f rest ih =>
    intro s
    obtain ⟨t2, ht2⟩ := ih (scanStep b s f)
    have hstep : ∃ t0, (scanStep b s f).outcomes = s.outcomes ++ t0 := by
      by_cases h1 : s.fatal
      · exact ⟨[], by simp [scanStep, h1]⟩
      · by_cases h2 : f.suffix ∈ supportedExtensions
        · by_cases h3 : (processFile b s.db s.vs f).outcome = Outcome.fatalNoBackend
          · exact ⟨[(processFile b s.db s.vs f).outcome], by simp [scanStep, h1, h2, h3]⟩
          · exact ⟨[(processFile b s.db s.vs f).outcome], by simp [scanStep, h1, h2, h3]⟩
        · exact ⟨[], by simp [scanStep, h1, h2]⟩
    obtain ⟨t0, ht0⟩ := hstep
    refine ⟨t0 ++ t2, ?_⟩
    rw [List.foldl_cons, ht2, ht0, List.append_assoc]

/-- Scan-level preservation of the alignment invariant, assuming no
file aborted on the consistency guard. -/
theorem foldl_scanStep_aligned (embed : String → V) :
    ∀ (l : List FileInfo) (s : ScanState V),
      ChunkVectorAligned embed s.db s.vs →
      Outcome.abortedSync ∉ (l.foldl (scanStep (some embed)) s).outcomes →
      ChunkVectorAligned embed (l.foldl (scanStep (some embed)) s).db
        (l.foldl (scanStep (some embed)) s).vs := by
  intro l
  induction l with
  | nil => intro s hs _; exact hs
  | cons f rest ih =>
    intro s hs hnot
    rw [List.foldl_cons] at hnot ⊢
    refine ih (scanStep (some embed) s f) ?_ hnot
    by_cases h1 : s.fatal
    · simpa [scanStep, h1] using hs
    · by_cases h2 : f.suffix ∈ supportedExtensions
      · have hno : (processFile (some embed) s.db s.vs f).outcome ≠ Outcome.abortedSync := by
          intro habort
          obtain ⟨t2, ht2⟩ := foldl_scanStep_outcomes (some embed) rest (scanStep (some embed) s f)
          apply hnot
          rw [ht2]
          have hmem : Outcome.abortedSync ∈ (scanStep (some embed) s f).outcomes := by
            by_cases h3 : (processFile (some embed) s.db s.vs f).outcome = Outcome.fatalNoBackend
            · rw [habort] at h3; exact absurd h3 (by decide)
            · simp [scanStep, h1, h2, h3, habort]
          exact List.mem_append.mpr (Or.inl hmem)
        have haligned := processFile_aligned embed s.db s.vs f hs hno
        by_cases h3 : (processFile (some embed) s.db s.vs f).outcome = Outcome.fatalNoBackend
        · simpa [scanStep, h1, h2, h3] using haligned
        · simpa [scanStep, h1, h2, h3] using haligned
      · simpa [scanStep, h1, h2] using hs

/-- C1: after a successful scan with no aborted files, every chunk id
`c` with a corresponding vector satisfies: the index size is at least
`c` and the vector at position `c - 1` is the embedding of that chunk's
content; and (the second conjunct) a single `_process_file` call that
commits a file's chunk rows and then appends its embedding batch
preserves this alignment whenever the index was aligned beforehand and
the call did not abort on the guard. -/
theorem scan_preserves_alignment (embed : String → V) (db : DB) (vs : VectorStore V)
    (files : List FileInfo)
    (halign : ChunkVectorAligned embed db vs)
    (hnoabort : Outcome.abortedSync ∉ (scanFrom (some embed) db vs files).outcomes)
    (hnofatal : (scanFrom (some embed) db vs files).fatal = false) :
    ChunkVectorAligned embed (scanFrom (some embed) db vs files).db
      (scanFrom (some embed) db vs files).vs ∧
    ∀ (db2 : DB) (vs2 : VectorStore V) (fi : FileInfo),
      ChunkVectorAligned embed db2 vs2 →
      (processFile (some embed) db2 vs2 fi).outcome ≠ Outcome.abortedSync →
      ChunkVectorAligned embed (processFile (some embed) db2 vs2 fi).db
        (processFile (some embed) db2 vs2 fi).vs := by
  refine ⟨?_, fun db2 vs2 fi h2 hno2 => processFile_aligned embed db2 vs2 fi h2 hno2⟩
  have _ := hnofatal
  exact foldl_scanStep_aligned embed files ⟨db, vs, [], false, none⟩ halign hnoabort

/-- Witness for C1: a scan of one small text file from the empty,
trivially aligned state completes with no aborted file, and the
invariant holds afterwards. -/
theorem scan_preserves_alignment_witness :
    (ChunkVectorAligned (fun s => s) emptyDB (emptyVS (V := String)) ∧
      Outcome.abortedSync ∉ (scanFrom (some (fun s => s)) emptyDB emptyVS
        [⟨"w1.txt", ".txt", true, 5, 3, "h1", "hello"⟩]).outcomes ∧
      (scanFrom (some (fun s => s)) emptyDB emptyVS
        [⟨"w1.txt", ".txt", true, 5, 3, "h1", "hello"⟩]).fatal = false) ∧
    (ChunkVectorAligned (fun s => s)
      (scanFrom (some (fun s => s)) emptyDB emptyVS
        [⟨"w1.txt", ".txt", true, 5, 3, "h1", "hello"⟩]).db
      (scanFrom (some (fun s => s)) emptyDB emptyVS
        [⟨"w1.txt", ".txt", true, 5, 3, "h1", "hello"⟩]).vs ∧
    ∀ (db2 : DB) (vs2 : VectorStore String) (fi : FileInfo),
      ChunkVectorAligned (fun s => s) db2 vs2 →
      (processFile (some (fun s => s)) db2 vs2 fi).outcome ≠ Outcome.abortedSync →
      ChunkVectorAligned (fun s => s) (processFile (some (fun s => s)) db2 vs2 fi).db
        (processFile (some (fun s => s)) db2 vs2 fi).vs) :=
  ⟨⟨by simp [ChunkVectorAligned, emptyDB], by decide, by decide⟩,
    scan_preserves_alignment (fun s => s) emptyDB emptyVS
      [⟨"w1.txt", ".txt", true, 5, 3, "h1", "hello"⟩]
      (by simp [ChunkVectorAligned, emptyDB]) (by decide) (by decide)⟩

/-! ## Claim C2: the three-file end-to-end scan -/

/-- A `.txt` file whose 1001-character text chunks into exactly two
chunks under the default `chunk_size=1000, chunk_overlap=200`. -/
def fileTwoChunks : FileInfo :=
  ⟨"doc.txt", ".txt", true, 1001, 100, "hashA", String.mk (List.replicate 1001 'a')⟩

/-- A file with an unsupported extension (never processed by `scan`). -/
def fileUnsupported : FileInfo :=
  ⟨"img.xyz", ".xyz", true, 10, 100, "hashB", "binarydata"⟩

/-- An empty `.txt` file (processed, but no text is extracted). -/
def fileEmpty : FileInfo :=
  ⟨"empty.txt", ".txt", true, 0, 100, "hashC", ""⟩

set_option maxRecDepth 100000

/-- C2: the claim says this scan ends with 2 File records and 2 vectors
at positions 0 and 1.  The code does create exactly the 2 File records
(and the 2 chunk rows), but the consistency guard — which runs per
inserted chunk against the index size that only grows after the whole
file — fires on the second chunk of the two-chunk file, so the file's
vector append is skipped and the Vector Index stays empty. -/
theorem scan_three_files_guard_misfires :
    (scanFrom (some (fun s => s)) emptyDB emptyVS
        [fileTwoChunks, fileUnsupported, fileEmpty]).db.files.length = 2 ∧
    (scanFrom (some (fun s => s)) emptyDB emptyVS
        [fileTwoChunks, fileUnsupported, fileEmpty]).db.chunks.length = 2 ∧
    (scanFrom (some (fun s => s)) emptyDB emptyVS
        [fileTwoChunks, fileUnsupported, fileEmpty]).vs.vectors.length = 0 ∧
    Outcome.abortedSync ∈ (scanFrom (some (fun s => s)) emptyDB emptyVS
        [fileTwoChunks, fileUnsupported, fileEmpty]).outcomes := by
  decide

/-! ## Claim C6: behaviour on detected drift -/

/-- The guard-abort path of the body: no vector append, the fatal
message names the rebuild command, and everything committed up to the
detection (the new file row and the inserted chunk rows) is retained. -/
theorem processFileBody_abort (backend : Option (String → V)) (db : DB)
    (vs : VectorStore V) (fi : FileInfo)
    (h : (processFileBody backend db vs fi).outcome = .abortedSync) :
    (processFileBody backend db vs fi).vs = vs ∧
    (∃ m, (processFileBody backend db vs fi).err = some m ∧ MentionsRebuild m) ∧
    ∃ fr rows, rows ≠ [] ∧
      (processFileBody backend db vs fi).db.files = db.files ++ [fr] ∧
      (processFileBody backend db vs fi).db.chunks = db.chunks ++ rows := by
  by_cases ht : fi.text = ""
  · simp [processFileBody, ht] at h
  · by_cases hch : chunkText fi.text 1000 200 = []
    · simp [processFileBody, ht, hch] at h
    · match hb : backend with
      | none => simp [processFileBody, ht, hch, hb] at h
      | some embed =>
        rcases hr2 : (insertChunksLoop vs.ntotal
            (addFile db fi.file_path fi.hash fi.size fi.mtime).2
            (addFile db fi.file_path fi.hash fi.size fi.mtime).1 0
            (chunkText fi.text 1000 200)).2 with _ | msg
        · simp [processFileBody, ht, hch, hr2] at h
        · obtain ⟨rows, hfiles, hchunks, herr⟩ :=
            insertChunksLoop_appends vs.ntotal
              (addFile db fi.file_path fi.hash fi.size fi.mtime).2
              (chunkText fi.text 1000 200)
              (addFile db fi.file_path fi.hash fi.size fi.mtime).1 0
          obtain ⟨hrne, e, f, hmsg⟩ := herr msg hr2
          refine ⟨?_, ⟨msg, ?_, ?_⟩, ?_⟩
          · simp [processFileBody, ht, hch, hr2]
          · simp [processFileBody, ht, hch, hr2]
          · exact hmsg ▸ ⟨syncErrMsgPre e f, syncErrMsgPost, rfl⟩
          · refine ⟨⟨nextRowId (db.files.map (·.id)), fi.file_path, fi.hash, fi.size, fi.mtime⟩,
              rows, hrne, ?_, ?_⟩
            · simp only [processFileBody, if_neg ht, if_neg hch, hr2]
              rw [hfiles]
              rfl
            · simp only [processFileBody, if_neg ht, if_neg hch, hr2]
              rw [hchunks]
              rfl

/-- C6: whenever the consistency guard detects drift while processing a
file, the pipeline appends no vectors at all for that file (the vector
store is returned untouched), reports a fatal error whose message names
the `rebuild-index` remediation, and every file and chunk row already
committed before the detection remains in the store: the result store
extends (by pure appends) the store reached after the optional
changed-file deletion. -/
theorem drift_aborts_vector_write (backend : Option (String → V)) (db : DB)
    (vs : VectorStore V) (fi : FileInfo)
    (habort : (processFile backend db vs fi).outcome = .abortedSync) :
    (processFile backend db vs fi).vs = vs ∧
    (∃ m, (processFile backend db vs fi).err = some m ∧ MentionsRebuild m) ∧
    ∃ db1, (db1 = db ∨ ∃ fid0, db1 = deleteFileAndChunks db fid0) ∧
      ∃ fr rows, rows ≠ [] ∧
        (processFile backend db vs fi).db.files = db1.files ++ [fr] ∧
        (processFile backend db vs fi).db.chunks = db1.chunks ++ rows := by
  by_cases hread : fi.readable = false
  · simp [processFile, hread] at habort
  · rcases hlook : getFileByPath db fi.file_path with _ | ⟨fid, sz, mt⟩
    · have habort2 : (processFileBody backend db vs fi).outcome = .abortedSync := by
        simpa [processFile, hread, hlook] using habort
      obtain ⟨hvs, hm, fr, rows, hrne, hfiles, hchunks⟩ :=
        processFileBody_abort backend db vs fi habort2
      refine ⟨?_, ?_, db, Or.inl rfl, fr, rows, hrne, ?_, ?_⟩ <;>
        simp only [processFile, hread, Bool.false_eq_true, if_false, hlook] <;>
        first
          | exact hvs
          | exact hm
          | exact hfiles
          | exact hchunks
    · by_cases hmatch : sz = fi.size ∧ mt = fi.mtime
      · simp [processFile, hread, hlook, hmatch] at habort
      · have habort2 : (processFileBody backend (deleteFileAndChunks db fid) vs fi).outcome =
            .abortedSync := by
          simpa [processFile, hread, hlook, hmatch] using habort
        obtain ⟨hvs, hm, fr, rows, hrne, hfiles, hchunks⟩ :=
          processFileBody_abort backend (deleteFileAndChunks db fid) vs fi habort2
        refine ⟨?_, ?_, deleteFileAndChunks db fid, Or.inr ⟨fid, rfl⟩, fr, rows, hrne, ?_, ?_⟩ <;>
          simp only [processFile, hread, Bool.false_eq_true, if_false, hlook, hmatch, if_neg hmatch] <;>
          first
            | exact hvs
            | exact hm
            | exact hfiles
            | exact hchunks

/-- Witness for C6: processing a one-chunk file against a store with one
stale vector (index size 1, no chunk rows) trips the guard. -/
theorem drift_aborts_vector_write_witness :
    ((processFile (some (fun s => s)) emptyDB (⟨["stale"]⟩ : VectorStore String)
        ⟨"w6.txt", ".txt", true, 2, 3, "h6", "hi"⟩).outcome = .abortedSync) ∧
    ((processFile (some (fun s => s)) emptyDB (⟨["stale"]⟩ : VectorStore String)
        ⟨"w6.txt", ".txt", true, 2, 3, "h6", "hi"⟩).vs = (⟨["stale"]⟩ : VectorStore String) ∧
      (∃ m, (processFile (some (fun s => s)) emptyDB (⟨["stale"]⟩ : VectorStore String)
        ⟨"w6.txt", ".txt", true, 2, 3, "h6", "hi"⟩).err = some m ∧ MentionsRebuild m) ∧
      ∃ db1, (db1 = emptyDB ∨ ∃ fid0, db1 = deleteFileAndChunks emptyDB fid0) ∧
        ∃ fr rows, rows ≠ [] ∧
          (processFile (some (fun s => s)) emptyDB (⟨["stale"]⟩ : VectorStore String)
            ⟨"w6.txt", ".txt", true, 2, 3, "h6", "hi"⟩).db.files = db1.files ++ [fr] ∧
          (processFile (some (fun s => s)) emptyDB (⟨["stale"]⟩ : VectorStore String)
            ⟨"w6.txt", ".txt", true, 2, 3, "h6", "hi"⟩).db.chunks = db1.chunks ++ rows) :=
  ⟨by decide,
    drift_aborts_vector_write (some (fun s => s)) emptyDB (⟨["stale"]⟩ : VectorStore String)
      ⟨"w6.txt", ".txt", true, 2, 3, "h6", "hi"⟩ (by decide)⟩

/-! ## Claim C7: idempotence on an unchanged corpus -/

/-- A file whose stored `(size, mtime)` match is skipped without any
store mutation (and an unreadable file is skipped likewise). -/
theorem processFile_unchanged_skips (backend : Option (String → V)) (db : DB)
    (vs : VectorStore V) (fi : FileInfo)
    (h : fi.readable = true → ∃ fid, getFileByPath db fi.file_path = some (fid, fi.size, fi.mtime)) :
    (processFile backend db vs fi).db = db ∧ (processFile backend db vs fi).vs = vs ∧
      (processFile backend db vs fi).outcome ≠ Outcome.fatalNoBackend := by
  by_cases hread : fi.readable = false
  · simp [processFile, hread]
  · obtain ⟨fid, hfid⟩ := h (by revert hread; cases fi.readable <;> simp)
    simp [processFile, hread, hfid]

/-- C7: a scan over files that all still match their stored
`(size, mtime)` inserts no File rows, no Chunk rows, and leaves the
Vector Index size unchanged (the stores are returned exactly as they
were). -/
theorem scan_idempotent_on_unchanged (backend : Option (String → V)) (db : DB)
    (vs : VectorStore V) (files : List FileInfo)
    (h : ∀ fi ∈ files, fi.readable = true →
      ∃ fid, getFileByPath db fi.file_path = some (fid, fi.size, fi.mtime)) :
    (scanFrom backend db vs files).db.files = db.files ∧
    (scanFrom backend db vs files).db.chunks = db.chunks ∧
    (scanFrom backend db vs files).vs.ntotal = vs.ntotal := by
  have key : ∀ (l : List FileInfo),
      (∀ fi ∈ l, fi.readable = true →
        ∃ fid, getFileByPath db fi.file_path = some (fid, fi.size, fi.mtime)) →
      ∀ (so : List Outcome) (sf : Bool) (se : Option String),
        (l.foldl (scanStep backend) ⟨db, vs, so, sf, se⟩).db = db ∧
        (l.foldl (scanStep backend) ⟨db, vs, so, sf, se⟩).vs = vs := by
    intro l
    induction l with
    | nil => intro _ so sf se; exact ⟨rfl, rfl⟩
    | cons f rest ih =>
      intro hl so sf se
      rw [List.foldl_cons]
      have hl2 := fun fi hfi => hl fi (List.mem_cons_of_mem f hfi)
      cases sf with
      | true =>
        have hstep : scanStep backend (⟨db, vs, so, true, se⟩ : ScanState V) f =
            ⟨db, vs, so, true, se⟩ := by
          simp [scanStep]
        rw [hstep]
        exact ih hl2 so true se
      | false =>
        by_cases h2 : f.suffix ∈ supportedExtensions
        · obtain ⟨hpdb, hpvs, hpout⟩ :=
            processFile_unchanged_skips backend db vs f (hl f (by simp))
          have hstep : scanStep backend (⟨db, vs, so, false, se⟩ : ScanState V) f =
              ⟨db, vs, so ++ [(processFile backend db vs f).outcome], false, se⟩ := by
            simp [scanStep, h2, hpout, hpdb, hpvs]
          rw [hstep]
          exact ih hl2 _ false se
        · have hstep : scanStep backend (⟨db, vs, so, false, se⟩ : ScanState V) f =
              ⟨db, vs, so, false, se⟩ := by
            simp [scanStep, h2]
          rw [hstep]
          exact ih hl2 so false se
  obtain ⟨hdb, hvs⟩ := key files h [] false none
  refine ⟨?_, ?_, ?_⟩
  · rw [scanFrom, hdb]
  · rw [scanFrom, hdb]
  · rw [scanFrom, hvs]

/-- Witness for C7: rescanning a store that already holds the file (and
its matching size and mtime) changes nothing. -/
theorem scan_idempotent_on_unchanged_witness :
    (∀ fi ∈ [(⟨"w7.txt", ".txt", true, 5, 3, "h7", "hello"⟩ : FileInfo)], fi.readable = true →
      ∃ fid, getFileByPath (addFile emptyDB "w7.txt" "h7" 5 3).1 fi.file_path =
        some (fid, fi.size, fi.mtime)) ∧
    ((scanFrom (some (fun s => s)) (addFile emptyDB "w7.txt" "h7" 5 3).1 (emptyVS (V := String))
        [⟨"w7.txt", ".txt", true, 5, 3, "h7", "hello"⟩]).db.files =
      (addFile emptyDB "w7.txt" "h7" 5 3).1.files ∧
    (scanFrom (some (fun s => s)) (addFile emptyDB "w7.txt" "h7" 5 3).1 emptyVS
        [⟨"w7.txt", ".txt", true, 5, 3, "h7", "hello"⟩]).db.chunks =
      (addFile emptyDB "w7.txt" "h7" 5 3).1.chunks ∧
    (scanFrom (some (fun s => s)) (addFile emptyDB "w7.txt" "h7" 5 3).1 emptyVS
        [⟨"w7.txt", ".txt", true, 5, 3, "h7", "hello"⟩]).vs.ntotal =
      (emptyVS (V := String)).ntotal) :=
  ⟨fun fi hfi _ => by
      simp only [List.mem_singleton] at hfi
      subst hfi
      exact ⟨1, rfl⟩,
    scan_idempotent_on_unchanged (some (fun s => s)) (addFile emptyDB "w7.txt" "h7" 5 3).1
      emptyVS [⟨"w7.txt", ".txt", true, 5, 3, "h7", "hello"⟩]
      (fun fi hfi _ => by
        simp only [List.mem_singleton] at hfi
        subst hfi
        exact ⟨1, rfl⟩)⟩

/-! ## Claim C8: missing embedding backend is fatal for the run -/

/-- Once a `typer.Exit` has fired, the rest of the scan does nothing. -/
theorem scan_fatal_frozen (b : Option (String → V)) :
    ∀ (l : List FileInfo) (s : ScanState V), s.fatal = true →
      l.foldl (scanStep b) s = s := by
  intro l
  induction l with
  | nil => intro s _; rfl
  | cons f rest ih =>
    intro s hs
    rw [List.foldl_cons]
    have : scanStep b s f = s := by simp [scanStep, hs]
    rw [this]
    exact ih s hs

/-- When the backend is absent and `_process_file` reports the fatal
outcome, the printed error is the missing-model message. -/
theorem processFile_none_err (db : DB) (vs : VectorStore V) (fi : FileInfo)
    (h : (processFile (none : Option (String → V)) db vs fi).outcome = .fatalNoBackend) :
    (processFile (none : Option (String → V)) db vs fi).err = some noBackendMsg := by
  by_cases hread : fi.readable = false
  · simp [processFile, hread] at h
  · rcases hlook : getFileByPath db fi.file_path with _ | ⟨fid, sz, mt⟩
    · by_cases ht : fi.text = ""
      · simp [processFile, processFileBody, hread, hlook, ht] at h
      · by_cases hch : chunkText fi.text 1000 200 = []
        · simp [processFile, processFileBody, hread, hlook, ht, hch] at h
        · simp [processFile, processFileBody, hread, hlook, ht, hch]
    · by_cases hmatch : sz = fi.size ∧ mt = fi.mtime
      · simp [processFile, hread, hlook, hmatch] at h
      · by_cases ht : fi.text = ""
        · simp [processFile, processFileBody, hread, hlook, hmatch, ht] at h
        · by_cases hch : chunkText fi.text 1000 200 = []
          · simp [processFile, processFileBody, hread, hlook, hmatch, ht, hch] at h
          · simp [processFile, processFileBody, hread, hlook, hmatch, ht, hch]

/-- With no backend, `_process_file` can never reach the indexed
outcome: the missing backend is not recoverable per file. -/
theorem processFile_none_not_indexed (db : DB) (vs : VectorStore V) (fi : FileInfo) :
    (processFile (none : Option (String → V)) db vs fi).outcome ≠ Outcome.indexed := by
  by_cases hread : fi.readable = false
  · simp [processFile, hread]
  · rcases hlook : getFileByPath db fi.file_path with _ | ⟨fid, sz, mt⟩
    · by_cases ht : fi.text = ""
      · simp [processFile, processFileBody, hread, hlook, ht]
      · by_cases hch : chunkText fi.text 1000 200 = []
        · simp [processFile, processFileBody, hread, hlook, ht, hch]
        · simp [processFile, processFileBody, hread, hlook, ht, hch]
    · by_cases hmatch : sz = fi.size ∧ mt = fi.mtime
      · simp [processFile, hread, hlook, hmatch]
      · by_cases ht : fi.text = ""
        · simp [processFile, processFileBody, hread, hlook, hmatch, ht]
        · by_cases hch : chunkText fi.text 1000 200 = []
          · simp [processFile, processFileBody, hread, hlook, hmatch, ht, hch]
          · simp [processFile, processFileBody, hread, hlook, hmatch, ht, hch]

/-- C8: when the embedding backend's model or tokenizer files are
absent (no backend), the first file that needs embeddings aborts the
whole run with the fatal message instructing the operator to run the
init command: the scan result does not depend on the files that follow
(they are never processed), and no file can ever reach the indexed
outcome without the backend. -/
theorem missing_backend_aborts_run (db : DB) (vs : VectorStore V)
    (fs1 fs2 : List FileInfo) (f : FileInfo)
    (hfat : (scanFrom (none : Option (String → V)) db vs fs1).fatal = false)
    (hsupp : f.suffix ∈ supportedExtensions)
    (hhit : (processFile (none : Option (String → V))
      (scanFrom (none : Option (String → V)) db vs fs1).db
      (scanFrom (none : Option (String → V)) db vs fs1).vs f).outcome = Outcome.fatalNoBackend) :
    scanFrom (none : Option (String → V)) db vs (fs1 ++ f :: fs2) =
      scanFrom (none : Option (String → V)) db vs (fs1 ++ [f]) ∧
    (scanFrom (none : Option (String → V)) db vs (fs1 ++ [f])).fatal = true ∧
    (∃ m, (scanFrom (none : Option (String → V)) db vs (fs1 ++ [f])).err = some m ∧
      MentionsInit m) ∧
    ∀ (db2 : DB) (vs2 : VectorStore V) (fi2 : FileInfo),
      (processFile (none : Option (String → V)) db2 vs2 fi2).outcome ≠ Outcome.indexed := by
  set s1 := scanFrom (none : Option (String → V)) db vs fs1 with hs1
  have hstep : scanStep (none : Option (String → V)) s1 f =
      ⟨(processFile none s1.db s1.vs f).db, (processFile none s1.db s1.vs f).vs,
        s1.outcomes ++ [(processFile none s1.db s1.vs f).outcome], true,
        (processFile none s1.db s1.vs f).err⟩ := by
    simp [scanStep, hfat, hsupp, hhit]
  have hleft : scanFrom (none : Option (String → V)) db vs (fs1 ++ f :: fs2) =
      scanStep (none : Option (String → V)) s1 f := by
    rw [scanFrom, List.foldl_append, List.foldl_cons]
    rw [hs1, scanFrom]
    exact scan_fatal_frozen none fs2 _ (by rw [← scanFrom, ← hs1, hstep])
  have hright : scanFrom (none : Option (String → V)) db vs (fs1 ++ [f]) =
      scanStep (none : Option (String → V)) s1 f := by
    rw [scanFrom, List.foldl_append, List.foldl_cons, List.foldl_nil]
    rfl
  refine ⟨by rw [hleft, hright], by rw [hright, hstep], ?_,
    fun db2 vs2 fi2 => processFile_none_not_indexed db2 vs2 fi2⟩
  refine ⟨noBackendMsg, ?_, ?_⟩
  · rw [hright, hstep]
    exact processFile_none_err s1.db s1.vs f hhit
  · exact ⟨"ERROR: Model or tokenizer not found. Please run ",
      ". Checked paths: model.onnx, tokenizer.json", rfl⟩

/-- Witness for C8: with no backend, scanning a new text file aborts the
run; a second file after it leaves the result unchanged. -/
theorem missing_backend_aborts_run_witness :
    ((scanFrom (none : Option (String → String)) emptyDB emptyVS []).fatal = false ∧
      ".txt" ∈ supportedExtensions ∧
      (processFile (none : Option (String → String))
        (scanFrom (none : Option (String → String)) emptyDB emptyVS []).db
        (scanFrom (none : Option (String → String)) emptyDB emptyVS []).vs
        ⟨"w8.txt", ".txt", true, 5, 3, "h8", "hello"⟩).outcome = Outcome.fatalNoBackend) ∧
    (scanFrom (none : Option (String → String)) emptyDB emptyVS
        ([] ++ (⟨"w8.txt", ".txt", true, 5, 3, "h8", "hello"⟩ : FileInfo) ::
          [⟨"w8b.txt", ".txt", true, 6, 4, "h8b", "world"⟩]) =
      scanFrom (none : Option (String → String)) emptyDB emptyVS
        ([] ++ [⟨"w8.txt", ".txt", true, 5, 3, "h8", "hello"⟩]) ∧
    (scanFrom (none : Option (String → String)) emptyDB emptyVS
        ([] ++ [⟨"w8.txt", ".txt", true, 5, 3, "h8", "hello"⟩])).fatal = true ∧
    (∃ m, (scanFrom (none : Option (String → String)) emptyDB emptyVS
        ([] ++ [⟨"w8.txt", ".txt", true, 5, 3, "h8", "hello"⟩])).err = some m ∧
      MentionsInit m) ∧
    ∀ (db2 : DB) (vs2 : VectorStore String) (fi2 : FileInfo),
      (processFile (none : Option (String → String)) db2 vs2 fi2).outcome ≠ Outcome.indexed) :=
  ⟨⟨by decide, by decide, by decide⟩,
    missing_backend_aborts_run emptyDB emptyVS []
      [⟨"w8b.txt", ".txt", true, 6, 4, "h8b", "world"⟩]
      ⟨"w8.txt", ".txt", true, 5, 3, "h8", "hello"⟩
      (by decide) (by decide) (by decide)⟩

/-! ## Claim C3: hybrid scoring (`cli.py`, `search`, steps 1 to 3)

The merge in the `search` command keeps a `defaultdict` from file id to
`{max_score, keyword_hit, best_chunk_id}` in insertion order, walks the
semantic results pairing `distances[0][i]` with the i-th row of
`get_chunk_details_by_ids`, marks keyword hits, adds the 0.1 boost once
per file with a keyword hit, and sorts by score descending (Python
`sorted` is stable).  Scores (floats in the source) are rationals
here.  Note `get_chunk_details_by_ids` returns rows in ascending-id
order (SQLite `IN`), not in the semantic rank order the ids were listed
in, while `distances` is in rank order. -/

/-- Per-file aggregation record of the `search` merge
(`{"max_score": 0.0, "keyword_hit": False, "best_chunk_id": -1}`). -/
structure MergeEntry where
  max_score : ℚ
  keyword_hit : Bool
  best_chunk_id : Int
deriving DecidableEq

/-- The `defaultdict` default value. -/
def defaultEntry : MergeEntry := ⟨0, false, -1⟩

/-- Association-list lookup by file id (Python dict access). -/
def frLookup : List (Nat × MergeEntry) → Nat → Option MergeEntry
  | [], _ => none
  | p :: rest, fid => if p.1 = fid then some p.2 else frLookup rest fid

/-- A `defaultdict` access: looking up a missing file id inserts the
default entry (at the end, preserving Python dict insertion order). -/
def frTouch (m : List (Nat × MergeEntry)) (fid : Nat) : List (Nat × MergeEntry) :=
  match frLookup m fid with
  | some _ => m
  | none => m ++ [(fid, defaultEntry)]

/-- Reads a file's entry (after a touch it is always present). -/
def frGet (m : List (Nat × MergeEntry)) (fid : Nat) : MergeEntry :=
  (frLookup m fid).getD defaultEntry

/-- In-place update of a file's entry, preserving dict order. -/
def frSet (m : List (Nat × MergeEntry)) (fid : Nat) (e : MergeEntry) :
    List (Nat × MergeEntry) :=
  m.map (fun p => if p.1 = fid then (fid, e) else p)

/-- One semantic result row: `score = float(distances[0][i])`; the
`defaultdict` read in the comparison creates the entry, and the score
and best chunk are updated when the score is strictly greater. -/
def semStep (m : List (Nat × MergeEntry)) (score : ℚ) (cid fid : Nat) :
    List (Nat × MergeEntry) :=
  let m1 := frTouch m fid
  let cur := frGet m1 fid
  if cur.max_score < score then frSet m1 fid ⟨score, cur.keyword_hit, (cid : Int)⟩ else m1

/-- The `enumerate(chunk_details)` loop over semantic candidates,
pairing the i-th retrieved row with `distances[i]`. -/
def semLoop (dists : List ℚ) :
    List (Nat × Nat × String) → Nat → List (Nat × MergeEntry) → List (Nat × MergeEntry)
  | [], _, m => m
  | (cid, fid, _) :: rest, i, m => semLoop dists rest (i + 1) (semStep m (dists.getD i 0) cid fid)

/-- One keyword result row: mark the hit (creating the entry when the
file had no semantic candidate) and record a best chunk when the file
had score 0. -/
def kwStep (m : List (Nat × MergeEntry)) (cid fid : Nat) : List (Nat × MergeEntry) :=
  let m1 := frTouch m fid
  let cur := frGet m1 fid
  let m2 := frSet m1 fid ⟨cur.max_score, true, cur.best_chunk_id⟩
  if cur.max_score = 0 then frSet m2 fid ⟨cur.max_score, true, (cid : Int)⟩ else m2

/-- The keyword-results loop. -/
def kwLoop : List (Nat × Nat × String) → List (Nat × MergeEntry) → List (Nat × MergeEntry)
  | [], m => m
  | (cid, fid, _) :: rest, m => kwLoop rest (kwStep m cid fid)

/-- The boost loop: `+= 0.1` once per file with a keyword hit. -/
def boostKeyword (m : List (Nat × MergeEntry)) : List (Nat × MergeEntry) :=
  m.map (fun p =>
    if p.2.keyword_hit then (p.1, ⟨p.2.max_score + 1/10, p.2.keyword_hit, p.2.best_chunk_id⟩)
    else p)

/-- Stable insertion for descending-score order (equal scores keep
their relative dict order, like Python stable `sorted`). -/
def insertByScoreDesc (x : Nat × MergeEntry) :
    List (Nat × MergeEntry) → List (Nat × MergeEntry)
  | [] => [x]
  | y :: ys => if y.2.max_score < x.2.max_score then x :: y :: ys else y :: insertByScoreDesc x ys

/-- Stable descending sort by score. -/
def sortByScoreDesc (l : List (Nat × MergeEntry)) : List (Nat × MergeEntry) :=
  l.foldr insertByScoreDesc []

/-- Model of the merge-and-rank phase of the `search` command: the
semantic candidates arrive as FAISS `(distances, positions)` in rank
order (positions are 0-based, mapped to chunk ids by adding one), the
keyword candidates as FTS chunk ids. -/
def searchMerge (db : DB) (distances : List ℚ) (positions : List Int)
    (keywordIds : List Int) : List (Nat × MergeEntry) :=
  let m1 := if positions = [] then []
    else semLoop distances (getChunkDetailsByIds db (positions.map (· + 1))) 0 []
  let m2 := if keywordIds = [] then m1 else kwLoop (getChunkDetailsByIds db keywordIds) m1
  sortByScoreDesc (boostKeyword m2)

/-- Definition following the claim's words, for comparison with
`searchMerge`: a candidate file's score is the maximum semantic
similarity over that file's own candidate chunks (each semantic
candidate is a `(position, score)` pair whose chunk id is the position
plus one), defaulting to 0, plus exactly 0.1 iff the file has at least
one keyword candidate chunk. -/
def specFileScore (db : DB) (semantic : List (Int × ℚ)) (keywordIds : List Int)
    (fid : Nat) : ℚ :=
  let ownsChunk : Int → Bool := fun cid =>
    (db.chunks.filter (fun c => (c.id : Int) == cid)).any (fun c => c.file_id == fid)
  let base := (semantic.filter (fun p => ownsChunk (p.1 + 1))).foldr
    (fun p acc => max p.2 acc) 0
  if keywordIds.any (fun k => ownsChunk k) then base + 1/10 else base

/-- Two files, one chunk each: chunk 1 belongs to file 1, chunk 2 to
file 2. -/
def dbC3 : DB :=
  ⟨[⟨1, "f1.txt", "h1", 3, 1⟩, ⟨2, "f2.txt", "h2", 3, 1⟩],
   [⟨1, 1, 0, "alpha"⟩, ⟨2, 2, 0, "beta"⟩]⟩

/-- C3: the claim says each candidate file's score is the maximum
semantic similarity over its own candidate chunks.  When the semantic
ranking order differs from ascending chunk-id order, the code pairs
`distances[0][i]` with the i-th row of the id-ordered SQL `IN` result
and so assigns scores to the wrong files: with chunk 2 ranked first at
0.9 and chunk 1 second at 0.5, file 1 is reported with score 0.9 and
file 2 with 0.5, while the claim requires file 1 to score 0.5 (the only
similarity of its only candidate chunk) and file 2 to score 0.9. -/
theorem hybrid_score_pairing_mismatch :
    frLookup (searchMerge dbC3 [9/10, 1/2] [1, 0] []) 1 = some ⟨9/10, false, 1⟩ ∧
    frLookup (searchMerge dbC3 [9/10, 1/2] [1, 0] []) 2 = some ⟨1/2, false, 2⟩ ∧
    specFileScore dbC3 [(1, 9/10), (0, 1/2)] [] 1 = 1/2 ∧
    specFileScore dbC3 [(1, 9/10), (0, 1/2)] [] 2 = 9/10 ∧
    ((9 : ℚ)/10 ≠ 1/2) := by
  refine ⟨?_, ?_, ?_, ?_, by norm_num⟩ <;>
    norm_num [searchMerge, specFileScore, dbC3, getChunkDetailsByIds, semLoop, semStep,
      frTouch, frGet, frSet, frLookup, defaultEntry, boostKeyword, sortByScoreDesc,
      insertByScoreDesc, List.filter, List.foldr]

end FileMind
